import Mathlib

/-!
A verification development for the MU-puzzle theorem generator
(`generator.py`): breadth-first generation of derivable strings from an
axiom under four string-rewrite rules, with global deduplication.

The Python code is embedded shallowly:

* the four rewrite rules are pure functions `String → Option String`
  (`None` models "rule not applicable");
* character-level helpers (`charsLead`, `substrOccurs`, `replaceFirst`)
  model Python's `str.startswith` / `str.endswith` / `in` / `str.replace(..., 1)`
  on the character list underlying a string;
* the BFS `while` loop of `generate_theorem_tree_optimized` is the
  recursive function `bfsLoop`, which returns the list of parent/child
  edges the loop creates (each `add_child` call, in order); the loop's
  mutable `seen_theorems` set is the threaded `seen` list and the FIFO
  `deque` is the queue argument;
* the mutation `current_node.add_child(child_node)` attaches children to
  nodes that already sit inside the tree, so the final tree is recovered
  from the edge trace by `buildTree`, which attaches each edge's child
  under the unique node holding the parent string (strings are unique in
  the tree, which is proved below, not assumed).
-/

/-- Predicate `charsLead pat s` is true iff `pat` is an initial segment of `s`.
Models Python's `str.startswith` on character lists. -/
def charsLead : List Char → List Char → Bool
  | [], _ => true
  | _ :: _, [] => false
  | a :: as, b :: bs => if a = b then charsLead as bs else false

/-- Predicate `substrOccurs pat s` is true iff `pat` occurs contiguously in `s`.
Models Python's `pat in s` substring test. -/
def substrOccurs (pat : List Char) : List Char → Bool
  | [] => pat.isEmpty
  | c :: cs => charsLead pat (c :: cs) || substrOccurs pat cs

/-- Function `replaceFirst s pat rep` replaces the leftmost occurrence of `pat` in
`s` by `rep` (and is the identity when there is no occurrence).
Models Python's `s.replace(pat, rep, 1)`. -/
def replaceFirst : List Char → List Char → List Char → List Char
  | [], _, _ => []
  | c :: cs, pat, rep =>
    if charsLead pat (c :: cs) then rep ++ (c :: cs).drop pat.length
    else c :: replaceFirst cs pat rep

/-- Python's `s.endswith(pat)`: `pat` is a final segment of `s`. -/
def strEndsWith (s pat : String) : Bool :=
  charsLead pat.data.reverse s.data.reverse

/-- Python's `s.startswith(pat)`. -/
def strStartsWith (s pat : String) : Bool :=
  charsLead pat.data s.data

/-- A rewrite rule: either not applicable (`none`) or one rewritten string. -/
abbrev Rule := String → Option String

/-- Rule `rule_0`: "If you possess a string whose last letter is I, add U to the end."
Python: `theorem + "U" if theorem.endswith("I") else None`. -/
def rule_0 (thm : String) : Option String :=
  if strEndsWith thm "I" then some (thm ++ "U") else none

/-- Rule `rule_1`: "If you have Mx, generate Mxx."
Python: `theorem + theorem[1:] if theorem.startswith("M") else None`
(`theorem[1:]` is the character list with the first character dropped). -/
def rule_1 (thm : String) : Option String :=
  if strStartsWith thm "M" then some ⟨thm.data ++ thm.data.drop 1⟩ else none

/-- Rule `rule_2`: "Replace first occurrence of III with U."
Python: `theorem.replace("III", "U", 1) if "III" in theorem else None`. -/
def rule_2 (thm : String) : Option String :=
  if substrOccurs "III".data thm.data then some ⟨replaceFirst thm.data "III".data "U".data⟩
  else none

/-- Rule `rule_3`: "Remove first occurrence of UU."
Python: `theorem.replace("UU", "", 1) if "UU" in theorem else None`. -/
def rule_3 (thm : String) : Option String :=
  if substrOccurs "UU".data thm.data then some ⟨replaceFirst thm.data "UU".data []⟩
  else none

/-- The fixed rule list `RULES = [rule_0, rule_1, rule_2, rule_3]`. -/
def RULES : List Rule := [rule_0, rule_1, rule_2, rule_3]

/-- A node in the theorem tree (`class TheoremNode`): the derived string
`thm` (Python attribute `theorem`), its `level`, and its ordered
`children`.  The Python `parent` back-reference is navigational only and
is represented structurally: a node's parent is the unique node that has
it among its `children`. -/
inductive TheoremNode where
  | mk (thm : String) (level : Nat) (children : List TheoremNode)

/-- The `theorem` attribute of a node. -/
def TheoremNode.thm : TheoremNode → String
  | .mk t _ _ => t

/-- The `level` attribute of a node. -/
def TheoremNode.level : TheoremNode → Nat
  | .mk _ l _ => l

/-- The `children` attribute of a node. -/
def TheoremNode.children : TheoremNode → List TheoremNode
  | .mk _ _ cs => cs

/-- Function `collect_all_theorems`: DFS pre-order collection of all nodes of the
tree (visit the node, then its children in stored order). -/
def collect_all_theorems : TheoremNode → List TheoremNode
  | .mk t l cs => .mk t l cs :: cs.attach.flatMap fun c => collect_all_theorems c.1
decreasing_by
  have := List.sizeOf_lt_of_mem c.2
  simp only [TheoremNode.mk.sizeOf_spec]
  omega

/-- Method `TheoremNode.get_path_to_root`: the Python method walks the `parent`
back-references from a node up to the root, collecting each `theorem`,
and reverses the result.  Here the walk itself is supplied as
`ancestors = [parent, grandparent, ..., root]` (the chain of parent
links), so the method returns the reversed theorem list of
`node :: ancestors`. -/
def get_path_to_root (node : TheoremNode) (ancestors : List TheoremNode) : List String :=
  ((node :: ancestors).map TheoremNode.thm).reverse

/-- Relation `HasParentPath root node ancestors` asserts that following the
`parent` back-references from `node` yields exactly
`ancestors = [parent, ..., root]`: each list element has the preceding
node among its `children`, ending at the tree root. -/
inductive HasParentPath (root : TheoremNode) : TheoremNode → List TheoremNode → Prop where
  | root0 : HasParentPath root root []
  | step {p ps c} : HasParentPath root p ps → c ∈ p.children → HasParentPath root c (p :: ps)

/-- One `add_child` event of the BFS loop: `child` (at depth `level`) was
attached under the node holding `parent`. -/
structure Edge where
  parent : String
  child : String
  level : Nat
deriving DecidableEq

/-- The body of the `for rule in rules` loop of
`generate_theorem_tree_optimized`, for one dequeued node: apply each rule
to the node's string; skip `None` results and results already in
`seen_theorems`; otherwise record the new child string and add it to the
seen set.  Returns the list of new child strings (in rule order) and the
updated seen set. -/
def applyRules : List Rule → String → List String → List String × List String
  | [], _, seen => ([], seen)
  | r :: rs, thm, seen =>
    match r thm with
    | none => applyRules rs thm seen
    | some t =>
      if t ∈ seen then applyRules rs thm seen
      else
        let p := applyRules rs thm (t :: seen)
        (t :: p.1, p.2)

/-- Termination measure for the BFS loop: each queue entry at depth `l`
weighs `(r+1)^(K-l)`, where `r` bounds how many children one dequeue can
create and `K` is the (truncated) depth bound. -/
def queueMeasure (r K : Nat) (queue : List (String × Nat)) : Nat :=
  (queue.map fun sl => (r + 1) ^ (K - sl.2)).sum

/-- The `while queue and queue[0][1] < max_level` loop of
`generate_theorem_tree_optimized`, returning the trace of `add_child`
events (edges) it performs, in order.  The queue holds
`(theorem, level)` pairs exactly like the Python deque holds
`(node, level)` pairs; `seen` is the `seen_theorems` set. -/
def bfsLoop (rules : List Rule) (max_level : Int) :
    List (String × Nat) → List String → List Edge
  | [], _ => []
  | (thm, level) :: rest, seen =>
    if h : (level : Int) < max_level then
      let p := applyRules rules thm seen
      (p.1.map fun t => ⟨thm, t, level + 1⟩) ++
        bfsLoop rules max_level (rest ++ p.1.map fun t => (t, level + 1)) p.2
    else []
termination_by queue _ => queueMeasure rules.length max_level.toNat queue
decreasing_by
  have hlen : ∀ (rs : List Rule) (s : String) (sn : List String),
      (applyRules rs s sn).1.length ≤ rs.length := by
    intro rs
    induction rs with
    | nil =>
      intro _ _
      simp [applyRules]
    | cons r rs ih =>
      intro s sn
      simp only [applyRules]
      cases r s with
      | none => exact Nat.le_succ_of_le (ih s sn)
      | some t =>
        by_cases ht : t ∈ sn
        · simp only [if_pos ht]
          exact Nat.le_succ_of_le (ih s sn)
        · simp only [if_neg ht, List.length_cons]
          exact Nat.succ_le_succ (ih s (t :: sn))
  have hsum : ∀ (c : Nat) (ns : List String), (ns.map fun _ => c).sum = ns.length * c := by
    intro c ns
    induction ns with
    | nil => simp
    | cons a as ih =>
      simp only [List.map_cons, List.sum_cons, List.length_cons, ih]
      ring
  simp only [queueMeasure, List.map_append, List.sum_append, List.map_cons, List.sum_cons,
    List.map_map]
  have hcomp : ((fun sl : String × Nat => (rules.length + 1) ^ (max_level.toNat - sl.2)) ∘
      fun t => (t, level + 1)) =
      fun _ => (rules.length + 1) ^ (max_level.toNat - (level + 1)) := rfl
  rw [hcomp, hsum]
  have hexp : max_level.toNat - (level + 1) = max_level.toNat - level - 1 := by omega
  have hpow : (rules.length + 1) ^ (max_level.toNat - level) =
      (rules.length + 1) ^ (max_level.toNat - level - 1) * (rules.length + 1) := by
    rw [← pow_succ]
    congr 1
    omega
  have hpos : 0 < (rules.length + 1) ^ (max_level.toNat - level - 1) :=
    Nat.pos_pow_of_pos _ (by omega)
  have hle : (applyRules rules thm seen).1.length *
      (rules.length + 1) ^ (max_level.toNat - level - 1) ≤
      rules.length * (rules.length + 1) ^ (max_level.toNat - level - 1) :=
    Nat.mul_le_mul_right _ (hlen rules thm seen)
  rw [hexp, hpow]
  have hr : rules.length * (rules.length + 1) ^ (max_level.toNat - level - 1) <
      (rules.length + 1) ^ (max_level.toNat - level - 1) * (rules.length + 1) := by
    rw [Nat.mul_comm ((rules.length + 1) ^ (max_level.toNat - level - 1)) (rules.length + 1)]
    exact Nat.mul_lt_mul_of_lt_of_le (Nat.lt_succ_self _) (Nat.le_refl _) hpos
  omega

/-- Fuel-indexed variant of `bfsLoop` (identical body, one unit of fuel
per loop iteration).  `bfsLoop` is defined by well-founded recursion and
therefore does not evaluate inside the kernel; `bfsLoopF` is structurally
recursive and is used, through `bfsLoopF_eq_bfsLoop`, to evaluate
concrete runs. -/
def bfsLoopF (rules : List Rule) (max_level : Int) :
    Nat → List (String × Nat) → List String → List Edge
  | _, [], _ => []
  | 0, _ :: _, _ => []
  | fuel + 1, (thm, level) :: rest, seen =>
    if (level : Int) < max_level then
      let p := applyRules rules thm seen
      (p.1.map fun t => ⟨thm, t, level + 1⟩) ++
        bfsLoopF rules max_level fuel (rest ++ p.1.map fun t => (t, level + 1)) p.2
    else []

/-- Reconstructs the mutated tree from the `add_child` trace.  Processing
the trace backwards, `pending` holds, for each processed edge, the fully
built subtree rooted at that edge's child, tagged with the parent string
it is to be attached under.  When edge `e` is reached, the pending
subtrees tagged with `e.child` are exactly the children that were
attached under `e.child`'s node (in creation order), completing the
subtree for `e.child`. -/
def attachEdges : List Edge → List (String × TheoremNode) → List (String × TheoremNode)
  | [], pending => pending
  | e :: es, pending =>
    let pending' := attachEdges es pending
    (e.parent,
      .mk e.child e.level ((pending'.filter fun pr => pr.1 == e.child).map fun pr => pr.2)) ::
      pending'.filter fun pr => !(pr.1 == e.child)

/-- Rebuild the root node from the axiom and the `add_child` trace: after
attaching all edges, the completed subtrees tagged with the axiom string
are the root's children (in creation order). -/
def buildTree (ax : String) (edges : List Edge) : TheoremNode :=
  .mk ax 0 (((attachEdges edges []).filter fun pr => pr.1 == ax).map fun pr => pr.2)

/-- Function `generate_theorem_tree_optimized(axiom, rules, max_level=10)`: create
the root node at level 0, seed `seen_theorems` with the axiom and the BFS
queue with `(root, 0)`, run the while loop, and return the root of the
resulting tree. -/
def generate_theorem_tree_optimized (ax : String) (rules : List Rule)
    (max_level : Int := 10) : TheoremNode :=
  buildTree ax (bfsLoop rules max_level [(ax, 0)] [ax])

/-- Proof device (level-synchronous view of the BFS): expand one whole
frontier level, applying `applyRules` to each frontier string in order
and threading the seen set through. -/
def expandLevel (rules : List Rule) : List String → List String → List String × List String
  | [], seen => ([], seen)
  | s :: fs, seen =>
    let p := applyRules rules s seen
    let q := expandLevel rules fs p.2
    (p.1 ++ q.1, q.2)

/-- Proof device: all strings newly discovered within `d` further BFS
levels starting from the given frontier and seen set. -/
def runLevelsNew (rules : List Rule) : Nat → List String → List String → List String
  | 0, _, _ => []
  | d + 1, fr, seen =>
    let p := expandLevel rules fr seen
    p.1 ++ runLevelsNew rules d p.1 p.2

/-- Predicate `Grounded roots es`: along the edge trace, every edge's parent string
is one of the given root nodes or the child of an earlier edge, and the
edge's level is one more than the level of that node.  `bfsLoop` traces
are grounded in the initial queue (`bfsLoop_grounded`). -/
def Grounded : List (String × Nat) → List Edge → Prop
  | _, [] => True
  | roots, e :: es =>
    (∃ sl ∈ roots, e.parent = sl.1 ∧ e.level = sl.2 + 1) ∧
      Grounded (roots ++ [(e.child, e.level)]) es

/-- The `(theorem, level)` pairs of all nodes in the tree rooted at `n`. -/
def nodePairs (n : TheoremNode) : List (String × Nat) :=
  (collect_all_theorems n).map fun m => (m.thm, m.level)

/-- The node pairs of all subtrees held in a pending list. -/
def pendingPairs : List (String × TheoremNode) → List (String × Nat)
  | [] => []
  | pr :: ps => nodePairs pr.2 ++ pendingPairs ps

/-- Every parent-child link in tree `n` is justified by an edge of `E`:
the child's stored string and level are those of an edge of `E` whose
parent string is the containing node's string. -/
def LinksOk (E : List Edge) (n : TheoremNode) : Prop :=
  ∀ m ∈ collect_all_theorems n, ∀ c ∈ m.children,
    ∃ e ∈ E, e.parent = m.thm ∧ e.child = c.thm ∧ e.level = c.level

/-- A pending entry is the completed subtree of some edge of `E`, tagged
with that edge's parent string. -/
def EntryOk (E : List Edge) (pr : String × TheoremNode) : Prop :=
  ∃ e ∈ E, pr.1 = e.parent ∧ pr.2.thm = e.child ∧ pr.2.level = e.level

/-- The `add_child` trace of one run of the generator. -/
def genEdges (ax : String) (rules : List Rule) (max_level : Int) : List Edge :=
  bfsLoop rules max_level [(ax, 0)] [ax]

theorem applyRules_length_le (rules : List Rule) (thm : String) (seen : List String) :
    (applyRules rules thm seen).1.length ≤ rules.length := by
  induction rules generalizing seen with
  | nil => simp [applyRules]
  | cons r rs ih =>
    simp only [applyRules]
    cases r thm with
    | none => exact Nat.le_succ_of_le (ih seen)
    | some t =>
      by_cases ht : t ∈ seen
      · simp only [if_pos ht]
        exact Nat.le_succ_of_le (ih seen)
      · simp only [if_neg ht, List.length_cons]
        exact Nat.succ_le_succ (ih (t :: seen))

theorem sum_map_const_nat {α : Type} (c : Nat) (ns : List α) :
    (ns.map fun _ => c).sum = ns.length * c := by
  induction ns with
  | nil => simp
  | cons a as ih =>
    simp only [List.map_cons, List.sum_cons, List.length_cons, ih]
    ring

theorem queueMeasure_decrease (r K level : Nat) (thm0 : String) (rest : List (String × Nat))
    (ns : List (String × Nat)) (h : level < K) (hlen : ns.length ≤ r)
    (hns : ∀ x ∈ ns, x.2 = level + 1) :
    queueMeasure r K (rest ++ ns) < queueMeasure r K ((thm0, level) :: rest) := by
  have hmap : ns.map (fun sl => (r + 1) ^ (K - sl.2)) = ns.map fun _ => (r + 1) ^ (K - (level + 1)) :=
    List.map_congr_left fun x hx => by rw [hns x hx]
  have hexp : K - (level + 1) = K - level - 1 := by omega
  have hpow : (r + 1) ^ (K - level) = (r + 1) ^ (K - level - 1) * (r + 1) := by
    rw [← pow_succ]
    congr 1
    omega
  have hpos : 0 < (r + 1) ^ (K - level - 1) := Nat.pos_pow_of_pos _ (by omega)
  have hle : ns.length * (r + 1) ^ (K - level - 1) ≤ r * (r + 1) ^ (K - level - 1) :=
    Nat.mul_le_mul_right _ hlen
  simp only [queueMeasure, List.map_append, List.sum_append, List.map_cons, List.sum_cons,
    hmap, sum_map_const_nat, hexp, hpow]
  have hr : r * (r + 1) ^ (K - level - 1) < (r + 1) ^ (K - level - 1) * (r + 1) := by
    rw [Nat.mul_comm ((r + 1) ^ (K - level - 1)) (r + 1)]
    exact Nat.mul_lt_mul_of_lt_of_le (Nat.lt_succ_self r) (Nat.le_refl _) hpos
  omega

theorem bfsLoopF_eq_bfsLoop (rules : List Rule) (max_level : Int) :
    ∀ (fuel : Nat) (queue : List (String × Nat)) (seen : List String),
      queueMeasure rules.length max_level.toNat queue < fuel →
      bfsLoopF rules max_level fuel queue seen = bfsLoop rules max_level queue seen := by
  intro fuel
  induction fuel with
  | zero =>
    intro queue seen h
    exact absurd h (Nat.not_lt_zero _)
  | succ f ih =>
    intro queue seen h
    cases queue with
    | nil => rw [bfsLoopF, bfsLoop]
    | cons hd rest =>
      obtain ⟨thm, level⟩ := hd
      rw [bfsLoopF, bfsLoop]
      by_cases hc : (level : Int) < max_level
      · rw [if_pos hc, dif_pos hc]
        have hdec : queueMeasure rules.length max_level.toNat
            (rest ++ (applyRules rules thm seen).1.map fun t => (t, level + 1)) <
            queueMeasure rules.length max_level.toNat ((thm, level) :: rest) := by
          apply queueMeasure_decrease
          · omega
          · simp only [List.length_map]
            apply applyRules_length_le
          · intro x hx
            simp only [List.mem_map] at hx
            obtain ⟨t, _, rfl⟩ := hx
            rfl
        dsimp only
        rw [ih (rest ++ (applyRules rules thm seen).1.map fun t => (t, level + 1))
          (applyRules rules thm seen).2 (by omega)]
      · rw [if_neg hc, dif_neg hc]

theorem applyRules_snd_eq (rules : List Rule) (thm : String) (seen : List String) :
    (applyRules rules thm seen).2 = (applyRules rules thm seen).1.reverse ++ seen := by
  induction rules generalizing seen with
  | nil => simp [applyRules]
  | cons r rs ih =>
    simp only [applyRules]
    cases r thm with
    | none => exact ih seen
    | some t =>
      by_cases ht : t ∈ seen
      · simp only [if_pos ht]
        exact ih seen
      · simp only [if_neg ht]
        rw [ih (t :: seen)]
        simp

theorem applyRules_mem_fst (rules : List Rule) (thm : String) (seen : List String) (t : String) :
    t ∈ (applyRules rules thm seen).1 ↔ t ∉ seen ∧ ∃ r ∈ rules, r thm = some t := by
  induction rules generalizing seen with
  | nil => simp [applyRules]
  | cons r rs ih =>
    simp only [applyRules]
    cases hr : r thm with
    | none =>
      rw [ih seen]
      constructor
      · rintro ⟨h1, rr, hm, he⟩
        exact ⟨h1, rr, List.mem_cons_of_mem _ hm, he⟩
      · rintro ⟨h1, rr, hm, he⟩
        rcases List.mem_cons.1 hm with rfl | hm'
        · rw [hr] at he
          cases he
        · exact ⟨h1, rr, hm', he⟩
    | some u =>
      dsimp only
      by_cases hu : u ∈ seen
      · rw [if_pos hu, ih seen]
        constructor
        · rintro ⟨h1, rr, hm, he⟩
          exact ⟨h1, rr, List.mem_cons_of_mem _ hm, he⟩
        · rintro ⟨h1, rr, hm, he⟩
          rcases List.mem_cons.1 hm with rfl | hm'
          · rw [hr] at he
            injection he with he'
            exact absurd (he' ▸ hu) h1
          · exact ⟨h1, rr, hm', he⟩
      · rw [if_neg hu]
        rw [List.mem_cons, ih (u :: seen)]
        constructor
        · rintro (rfl | ⟨h1, rr, hm, he⟩)
          · exact ⟨hu, r, List.mem_cons_self r rs, hr⟩
          · exact ⟨fun hs => h1 (List.mem_cons_of_mem _ hs), rr, List.mem_cons_of_mem _ hm, he⟩
        · rintro ⟨h1, rr, hm, he⟩
          rcases List.mem_cons.1 hm with rfl | hm'
          · rw [hr] at he
            injection he with he'
            exact Or.inl he'.symm
          · by_cases htu : t = u
            · exact Or.inl htu
            · exact Or.inr ⟨by simp [List.mem_cons, htu, h1], rr, hm', he⟩

theorem applyRules_nodup (rules : List Rule) (thm : String) (seen : List String) :
    (applyRules rules thm seen).1.Nodup := by
  induction rules generalizing seen with
  | nil => simp [applyRules]
  | cons r rs ih =>
    simp only [applyRules]
    cases r thm with
    | none => exact ih seen
    | some u =>
      by_cases hu : u ∈ seen
      · simp only [if_pos hu]
        exact ih seen
      · simp only [if_neg hu]
        refine List.nodup_cons.2 ⟨fun hmem => ?_, ih (u :: seen)⟩
        exact ((applyRules_mem_fst rs thm (u :: seen) u).1 hmem).1 (List.mem_cons_self u seen)

theorem applyRules_mem_snd (rules : List Rule) (thm : String) (seen : List String) (t : String) :
    t ∈ (applyRules rules thm seen).2 ↔ t ∈ seen ∨ ∃ r ∈ rules, r thm = some t := by
  rw [applyRules_snd_eq, List.mem_append, List.mem_reverse, applyRules_mem_fst]
  by_cases h1 : t ∈ seen
  · simp [h1]
  · simp [h1]

theorem bfsLoop_level_le (rules : List Rule) (max_level : Int) :
    ∀ (queue : List (String × Nat)) (seen : List String),
      ∀ e ∈ bfsLoop rules max_level queue seen, (e.level : Int) ≤ max_level := by
  intro queue seen
  induction queue, seen using bfsLoop.induct rules max_level with
  | case1 seen =>
    intro e he
    rw [bfsLoop] at he
    exact absurd he (List.not_mem_nil e)
  | case2 thm level rest seen h p ih =>
    intro e he
    rw [bfsLoop, dif_pos h] at he
    simp only [List.mem_append, List.mem_map] at he
    rcases he with ⟨t, ht, rfl⟩ | he
    · dsimp only
      push_cast
      omega
    · exact ih e he
  | case3 thm level rest seen h =>
    intro e he
    rw [bfsLoop, dif_neg h] at he
    exact absurd he (List.not_mem_nil e)

theorem bfsLoop_child_inv (rules : List Rule) (max_level : Int) :
    ∀ (queue : List (String × Nat)) (seen : List String),
      ((bfsLoop rules max_level queue seen).map Edge.child).Nodup ∧
      ∀ e ∈ bfsLoop rules max_level queue seen, e.child ∉ seen := by
  intro queue seen
  induction queue, seen using bfsLoop.induct rules max_level with
  | case1 seen =>
    rw [bfsLoop]
    exact ⟨List.nodup_nil, fun e he => absurd he (List.not_mem_nil e)⟩
  | case2 thm level rest seen h p ih =>
    rw [bfsLoop, dif_pos h]
    dsimp only
    rw [List.map_append, List.map_map]
    have hchild : (Edge.child ∘ fun t => Edge.mk thm t (level + 1)) = id := rfl
    rw [hchild, List.map_id]
    obtain ⟨ihnodup, ihfresh⟩ := ih
    have hsub : ∀ x ∈ (applyRules rules thm seen).1, x ∈ (applyRules rules thm seen).2 := by
      intro x hx
      rw [applyRules_snd_eq, List.mem_append, List.mem_reverse]
      exact Or.inl hx
    constructor
    · rw [List.nodup_append]
      refine ⟨applyRules_nodup rules thm seen, ihnodup, ?_⟩
      intro x hx hx'
      simp only [List.mem_map] at hx'
      obtain ⟨e, he, rfl⟩ := hx'
      exact ihfresh e he (hsub _ hx)
    · intro e he
      rcases List.mem_append.1 he with he1 | he2
      · simp only [List.mem_map] at he1
        obtain ⟨t, ht, rfl⟩ := he1
        exact ((applyRules_mem_fst rules thm seen t).1 ht).1
      · intro hcs
        apply ihfresh e he2
        rw [applyRules_snd_eq, List.mem_append]
        exact Or.inr hcs
  | case3 thm level rest seen h =>
    rw [bfsLoop, dif_neg h]
    exact ⟨List.nodup_nil, fun e he => absurd he (List.not_mem_nil e)⟩

theorem bfsLoop_mono (rules : List Rule) (K K' : Int) (hK : K ≤ K') :
    ∀ (queue : List (String × Nat)) (seen : List String),
      ∀ e ∈ bfsLoop rules K queue seen, e ∈ bfsLoop rules K' queue seen := by
  intro queue seen
  induction queue, seen using bfsLoop.induct rules K' with
  | case1 seen =>
    intro e he
    rw [bfsLoop] at he
    exact absurd he (List.not_mem_nil e)
  | case2 thm level rest seen h p ih =>
    intro e he
    by_cases h2 : (level : Int) < K
    · rw [bfsLoop, dif_pos h2] at he
      rw [bfsLoop, dif_pos h]
      dsimp only at he ⊢
      rcases List.mem_append.1 he with he1 | he2
      · exact List.mem_append.2 (Or.inl he1)
      · exact List.mem_append.2 (Or.inr (ih e he2))
    · rw [bfsLoop, dif_neg h2] at he
      exact absurd he (List.not_mem_nil e)
  | case3 thm level rest seen h =>
    intro e he
    have h2 : ¬ (level : Int) < K := by omega
    rw [bfsLoop, dif_neg h2] at he
    exact absurd he (List.not_mem_nil e)

theorem Grounded.mono : ∀ (es : List Edge) (RS RS' : List (String × Nat)),
    (∀ x ∈ RS, x ∈ RS') → Grounded RS es → Grounded RS' es := by
  intro es
  induction es with
  | nil =>
    intro RS RS' _ _
    trivial
  | cons e es ih =>
    intro RS RS' hsub hg
    obtain ⟨⟨sl, hsl, h1, h2⟩, hrest⟩ := hg
    refine ⟨⟨sl, hsub sl hsl, h1, h2⟩, ?_⟩
    apply ih _ _ _ hrest
    intro x hx
    rcases List.mem_append.1 hx with hx1 | hx2
    · exact List.mem_append.2 (Or.inl (hsub x hx1))
    · exact List.mem_append.2 (Or.inr hx2)

theorem Grounded.append : ∀ (es1 es2 : List Edge) (RS : List (String × Nat)),
    Grounded RS es1 → Grounded (RS ++ es1.map fun e => (e.child, e.level)) es2 →
    Grounded RS (es1 ++ es2) := by
  intro es1
  induction es1 with
  | nil =>
    intro es2 RS _ h2
    simpa using h2
  | cons e es ih =>
    intro es2 RS h1 h2
    obtain ⟨he, hrest⟩ := h1
    refine ⟨he, ?_⟩
    apply ih es2 (RS ++ [(e.child, e.level)]) hrest
    apply Grounded.mono _ _ _ _ h2
    intro x hx
    simp only [List.map_cons, List.append_assoc, List.singleton_append] at hx ⊢
    exact hx

theorem Grounded.block (thm : String) (level : Nat) :
    ∀ (ns : List String) (RS : List (String × Nat)), (thm, level) ∈ RS →
      Grounded RS (ns.map fun t => Edge.mk thm t (level + 1)) := by
  intro ns
  induction ns with
  | nil =>
    intro RS _
    trivial
  | cons t ts ih =>
    intro RS hmem
    exact ⟨⟨(thm, level), hmem, rfl, rfl⟩, ih _ (List.mem_append.2 (Or.inl hmem))⟩

theorem bfsLoop_grounded (rules : List Rule) (max_level : Int) :
    ∀ (queue : List (String × Nat)) (seen : List String) (RS : List (String × Nat)),
      (∀ sl ∈ queue, sl ∈ RS) →
      Grounded RS (bfsLoop rules max_level queue seen) := by
  intro queue seen
  induction queue, seen using bfsLoop.induct rules max_level with
  | case1 seen =>
    intro RS _
    rw [bfsLoop]
    trivial
  | case2 thm level rest seen h p ih =>
    intro RS hq
    rw [bfsLoop, dif_pos h]
    dsimp only
    apply Grounded.append
    · exact Grounded.block thm level _ RS (hq _ (List.mem_cons_self _ _))
    · apply ih
      intro sl hsl
      rcases List.mem_append.1 hsl with h1 | h2
      · exact List.mem_append.2 (Or.inl (hq sl (List.mem_cons_of_mem _ h1)))
      · simp only [List.mem_map] at h2
        obtain ⟨t, ht, rfl⟩ := h2
        refine List.mem_append.2 (Or.inr ?_)
        simp only [List.map_map, List.mem_map, Function.comp]
        exact ⟨t, ht, rfl⟩
  | case3 thm level rest seen h =>
    intro RS _
    rw [bfsLoop, dif_neg h]
    trivial

theorem attach_flatMap_eq {α β : Type} (l : List α) (f : α → List β) :
    (l.attach.flatMap fun c => f c.1) = l.flatMap f := by
  rw [List.flatMap_def, List.flatMap_def, List.attach_map_val]

theorem collect_all_theorems_eq (t : String) (l : Nat) (cs : List TheoremNode) :
    collect_all_theorems (.mk t l cs) = .mk t l cs :: cs.flatMap collect_all_theorems := by
  rw [collect_all_theorems, attach_flatMap_eq]

theorem mem_collect_self (n : TheoremNode) : n ∈ collect_all_theorems n := by
  cases n with
  | mk t l cs =>
    rw [collect_all_theorems_eq]
    exact List.mem_cons_self _ _

theorem mem_collect_of_child {n c x : TheoremNode} (hc : c ∈ n.children)
    (hx : x ∈ collect_all_theorems c) : x ∈ collect_all_theorems n := by
  cases n with
  | mk t l cs =>
    rw [collect_all_theorems_eq]
    refine List.mem_cons_of_mem _ (List.mem_flatMap.2 ⟨c, ?_, hx⟩)
    simpa [TheoremNode.children] using hc

theorem mem_collect_cases {x : TheoremNode} {t : String} {l : Nat} {cs : List TheoremNode}
    (hx : x ∈ collect_all_theorems (.mk t l cs)) :
    x = .mk t l cs ∨ ∃ c ∈ cs, x ∈ collect_all_theorems c := by
  rw [collect_all_theorems_eq] at hx
  rcases List.mem_cons.1 hx with h | h
  · exact Or.inl h
  · exact Or.inr (List.mem_flatMap.1 h)

theorem pendingPairs_append : ∀ (P Q : List (String × TheoremNode)),
    pendingPairs (P ++ Q) = pendingPairs P ++ pendingPairs Q := by
  intro P Q
  induction P with
  | nil => rfl
  | cons pr ps ih => simp [pendingPairs, ih]

theorem pendingPairs_perm : ∀ {P Q : List (String × TheoremNode)},
    List.Perm P Q → List.Perm (pendingPairs P) (pendingPairs Q) := by
  intro P Q h
  induction h with
  | nil => exact List.Perm.refl _
  | cons pr h ih =>
    simp only [pendingPairs]
    exact List.Perm.append_left _ ih
  | swap x y l =>
    simp only [pendingPairs]
    rw [← List.append_assoc, ← List.append_assoc]
    exact List.Perm.append_right _ List.perm_append_comm
  | trans _ _ ih1 ih2 => exact ih1.trans ih2

theorem forest_pairs_eq_pending (P : List (String × TheoremNode)) :
    ((P.map fun pr => pr.2).flatMap collect_all_theorems).map (fun m => (m.thm, m.level)) =
      pendingPairs P := by
  induction P with
  | nil => rfl
  | cons pr ps ih =>
    simp only [List.map_cons, List.flatMap_cons, List.map_append, pendingPairs, nodePairs, ih]

theorem nodePairs_mk (t : String) (l : Nat) (P : List (String × TheoremNode)) :
    nodePairs (.mk t l (P.map fun pr => pr.2)) = (t, l) :: pendingPairs P := by
  rw [nodePairs, collect_all_theorems_eq, List.map_cons, forest_pairs_eq_pending]
  rfl

theorem attachEdges_pairs_perm : ∀ (es : List Edge) (pending : List (String × TheoremNode)),
    List.Perm (pendingPairs (attachEdges es pending))
      ((es.map fun e => (e.child, e.level)) ++ pendingPairs pending) := by
  intro es
  induction es with
  | nil =>
    intro pending
    rw [attachEdges]
    exact List.Perm.refl _
  | cons e es ih =>
    intro pending
    rw [attachEdges]
    simp only [pendingPairs, nodePairs_mk, List.map_cons, List.cons_append]
    refine List.Perm.cons _ (List.Perm.trans ?_ (ih pending))
    rw [← pendingPairs_append]
    exact pendingPairs_perm (List.filter_append_perm _ _)

theorem attachEdges_tags : ∀ (es : List Edge) (RS : List (String × Nat))
    (pending : List (String × TheoremNode)),
    Grounded RS es →
    (∀ pr ∈ pending, pr.1 ∈ RS.map Prod.fst ++ es.map Edge.child) →
    ∀ pr ∈ attachEdges es pending, pr.1 ∈ RS.map Prod.fst := by
  intro es
  induction es with
  | nil =>
    intro RS pending _ hpen pr hpr
    rw [attachEdges] at hpr
    simpa using hpen pr hpr
  | cons e es ih =>
    intro RS pending hg hpen pr hpr
    obtain ⟨⟨sl, hsl, hp, hl⟩, hg'⟩ := hg
    rw [attachEdges] at hpr
    have htags : ∀ q ∈ attachEdges es pending, q.1 ∈ (RS ++ [(e.child, e.level)]).map Prod.fst := by
      apply ih _ _ hg'
      intro q hq
      have hthis := hpen q hq
      simp only [List.map_append, List.map_cons, List.map_nil, List.mem_append, List.mem_cons,
        List.not_mem_nil, or_false] at hthis ⊢
      tauto
    rcases List.mem_cons.1 hpr with rfl | hmem
    · rw [hp]
      exact List.mem_map.2 ⟨sl, hsl, rfl⟩
    · have h1 := htags pr (List.mem_of_mem_filter hmem)
      have h2 : ¬ pr.1 = e.child := by simpa using List.of_mem_filter hmem
      simp only [List.map_append, List.map_cons, List.map_nil, List.mem_append, List.mem_cons,
        List.not_mem_nil, or_false] at h1
      rcases h1 with h1 | h1
      · exact h1
      · exact absurd h1 h2

theorem attachEdges_links (E : List Edge) :
    ∀ (es : List Edge) (pending : List (String × TheoremNode)),
      (∀ e ∈ es, e ∈ E) →
      (∀ pr ∈ pending, EntryOk E pr ∧ LinksOk E pr.2) →
      ∀ pr ∈ attachEdges es pending, EntryOk E pr ∧ LinksOk E pr.2 := by
  intro es
  induction es with
  | nil =>
    intro pending _ hpen pr hpr
    rw [attachEdges] at hpr
    exact hpen pr hpr
  | cons e es ih =>
    intro pending hsub hpen pr hpr
    rw [attachEdges] at hpr
    have hih := ih pending (fun f hf => hsub f (List.mem_cons_of_mem _ hf)) hpen
    rcases List.mem_cons.1 hpr with rfl | hmem
    · constructor
      · exact ⟨e, hsub e (List.mem_cons_self _ _), rfl, rfl, rfl⟩
      · intro m hm c hc
        rcases mem_collect_cases hm with rfl | hin
        · simp only [TheoremNode.children] at hc
          obtain ⟨pr', hpr', rfl⟩ := List.mem_map.1 hc
          have htag : pr'.1 = e.child := by simpa using List.of_mem_filter hpr'
          obtain ⟨⟨f, hf, hf1, hf2, hf3⟩, _⟩ := hih pr' (List.mem_of_mem_filter hpr')
          refine ⟨f, hf, ?_, hf2.symm, hf3.symm⟩
          rw [← hf1, htag]
          rfl
        · obtain ⟨c0, hc0, hmc⟩ := hin
          obtain ⟨pr', hpr', rfl⟩ := List.mem_map.1 hc0
          exact (hih pr' (List.mem_of_mem_filter hpr')).2 m hmc c hc
    · exact hih pr (List.mem_of_mem_filter hmem)

theorem attachEdges_realize : ∀ (es : List Edge) (pending : List (String × TheoremNode)),
    ∀ f ∈ es,
      (∃ pr ∈ attachEdges es pending, ∃ m ∈ collect_all_theorems pr.2, ∃ c ∈ m.children,
        m.thm = f.parent ∧ c.thm = f.child ∧ c.level = f.level) ∨
      (∃ pr ∈ attachEdges es pending, pr.1 = f.parent ∧ pr.2.thm = f.child ∧
        pr.2.level = f.level) := by
  intro es
  induction es with
  | nil =>
    intro _ f hf
    exact absurd hf (List.not_mem_nil f)
  | cons e es ih =>
    intro pending f hf
    rw [attachEdges]
    rcases List.mem_cons.1 hf with rfl | hf'
    · refine Or.inr ⟨(f.parent, .mk f.child f.level _), List.mem_cons_self _ _, rfl, rfl, rfl⟩
    · rcases ih pending f hf' with ⟨pr, hpr, m, hm, c, hc, hmt, hct, hcl⟩ | ⟨pr, hpr, h1, h2, h3⟩
      · by_cases htag : pr.1 = e.child
        · refine Or.inl ⟨(e.parent, .mk e.child e.level
            (((attachEdges es pending).filter fun q => q.1 == e.child).map fun q => q.2)),
            List.mem_cons_self _ _, m, ?_, c, hc, hmt, hct, hcl⟩
          refine mem_collect_of_child (n := .mk e.child e.level _) ?_ hm
          simp only [TheoremNode.children]
          exact List.mem_map.2 ⟨pr, List.mem_filter.2 ⟨hpr, by simpa using htag⟩, rfl⟩
        · refine Or.inl ⟨pr, List.mem_cons_of_mem _ (List.mem_filter.2 ⟨hpr, by simpa using htag⟩),
            m, hm, c, hc, hmt, hct, hcl⟩
      · by_cases htag : pr.1 = e.child
        · refine Or.inl ⟨(e.parent, .mk e.child e.level
            (((attachEdges es pending).filter fun q => q.1 == e.child).map fun q => q.2)),
            List.mem_cons_self _ _, .mk e.child e.level _, mem_collect_self _, pr.2, ?_, ?_, h2, h3⟩
          · simp only [TheoremNode.children]
            exact List.mem_map.2 ⟨pr, List.mem_filter.2 ⟨hpr, by simpa using htag⟩, rfl⟩
          · simp only [TheoremNode.thm]
            rw [← htag, h1]
        · exact Or.inr ⟨pr, List.mem_cons_of_mem _ (List.mem_filter.2 ⟨hpr, by simpa using htag⟩),
            h1, h2, h3⟩

theorem generate_eq_buildTree (ax : String) (rules : List Rule) (max_level : Int) :
    generate_theorem_tree_optimized ax rules max_level =
      buildTree ax (genEdges ax rules max_level) := rfl

theorem genEdges_child_nodup (ax : String) (rules : List Rule) (max_level : Int) :
    ((genEdges ax rules max_level).map Edge.child).Nodup :=
  (bfsLoop_child_inv rules max_level [(ax, 0)] [ax]).1

theorem genEdges_child_ne_ax (ax : String) (rules : List Rule) (max_level : Int) :
    ∀ e ∈ genEdges ax rules max_level, e.child ≠ ax := by
  intro e he heq
  have := (bfsLoop_child_inv rules max_level [(ax, 0)] [ax]).2 e he
  rw [heq] at this
  exact this (List.mem_cons_self _ _)

theorem genEdges_level_le (ax : String) (rules : List Rule) (max_level : Int) :
    ∀ e ∈ genEdges ax rules max_level, (e.level : Int) ≤ max_level :=
  bfsLoop_level_le rules max_level [(ax, 0)] [ax]

theorem genEdges_grounded (ax : String) (rules : List Rule) (max_level : Int) :
    Grounded [(ax, 0)] (genEdges ax rules max_level) :=
  bfsLoop_grounded rules max_level [(ax, 0)] [ax] [(ax, 0)] fun _ h => h

theorem Grounded.justify : ∀ (es : List Edge) (RS : List (String × Nat)),
    Grounded RS es → ∀ e ∈ es,
      ∃ sl ∈ RS ++ es.map fun f => (f.child, f.level), e.parent = sl.1 ∧ e.level = sl.2 + 1 := by
  intro es
  induction es with
  | nil =>
    intro RS _ e he
    exact absurd he (List.not_mem_nil e)
  | cons f fs ih =>
    intro RS hg e he
    obtain ⟨⟨sl, hsl, h1, h2⟩, hg'⟩ := hg
    rcases List.mem_cons.1 he with rfl | he'
    · exact ⟨sl, List.mem_append.2 (Or.inl hsl), h1, h2⟩
    · obtain ⟨sl', hsl', h1', h2'⟩ := ih (RS ++ [(f.child, f.level)]) hg' e he'
      refine ⟨sl', ?_, h1', h2'⟩
      simp only [List.append_assoc, List.singleton_append, List.map_cons] at hsl' ⊢
      exact hsl'

theorem genTags (ax : String) (rules : List Rule) (max_level : Int) :
    ∀ pr ∈ attachEdges (genEdges ax rules max_level) [], pr.1 = ax := by
  intro pr hpr
  have := attachEdges_tags (genEdges ax rules max_level) [(ax, 0)] []
    (genEdges_grounded ax rules max_level) (fun _ h => absurd h (List.not_mem_nil _)) pr hpr
  simpa using this

theorem genPending_eq (ax : String) (rules : List Rule) (max_level : Int) :
    (attachEdges (genEdges ax rules max_level) []).filter (fun pr => pr.1 == ax) =
      attachEdges (genEdges ax rules max_level) [] := by
  apply List.filter_eq_self.2
  intro pr hpr
  simpa using genTags ax rules max_level pr hpr

theorem generate_children_eq (ax : String) (rules : List Rule) (max_level : Int) :
    (generate_theorem_tree_optimized ax rules max_level).children =
      (attachEdges (genEdges ax rules max_level) []).map fun pr => pr.2 := by
  rw [generate_eq_buildTree, buildTree, genPending_eq]
  rfl

theorem generate_pairs_perm (ax : String) (rules : List Rule) (max_level : Int) :
    List.Perm (nodePairs (generate_theorem_tree_optimized ax rules max_level))
      ((ax, 0) :: (genEdges ax rules max_level).map fun e => (e.child, e.level)) := by
  have h1 : nodePairs (generate_theorem_tree_optimized ax rules max_level) =
      (ax, 0) :: pendingPairs (attachEdges (genEdges ax rules max_level) []) := by
    rw [generate_eq_buildTree, buildTree, genPending_eq, nodePairs_mk]
  rw [h1]
  refine List.Perm.cons _ ?_
  have := attachEdges_pairs_perm (genEdges ax rules max_level) []
  simpa [pendingPairs] using this

theorem generate_strings_perm (ax : String) (rules : List Rule) (max_level : Int) :
    List.Perm
      ((collect_all_theorems (generate_theorem_tree_optimized ax rules max_level)).map
        TheoremNode.thm)
      (ax :: (genEdges ax rules max_level).map Edge.child) := by
  have h := (generate_pairs_perm ax rules max_level).map Prod.fst
  simp only [nodePairs, List.map_map, List.map_cons] at h
  have e1 : (Prod.fst ∘ fun m : TheoremNode => (m.thm, m.level)) = TheoremNode.thm := rfl
  have e2 : (Prod.fst ∘ fun e : Edge => (e.child, e.level)) = Edge.child := rfl
  rw [e1, e2] at h
  exact h

theorem generate_strings_nodup (ax : String) (rules : List Rule) (max_level : Int) :
    ((collect_all_theorems (generate_theorem_tree_optimized ax rules max_level)).map
      TheoremNode.thm).Nodup := by
  refine (List.Perm.nodup_iff (generate_strings_perm ax rules max_level)).2 ?_
  exact List.nodup_cons.2
    ⟨fun h => by
      obtain ⟨e, he, heq⟩ := List.mem_map.1 h
      exact genEdges_child_ne_ax ax rules max_level e he heq,
     genEdges_child_nodup ax rules max_level⟩

theorem generate_mk_eq (ax : String) (rules : List Rule) (max_level : Int) :
    generate_theorem_tree_optimized ax rules max_level =
      .mk ax 0 ((attachEdges (genEdges ax rules max_level) []).map fun pr => pr.2) := by
  rw [generate_eq_buildTree, buildTree, genPending_eq]

theorem generate_thm_eq (ax : String) (rules : List Rule) (max_level : Int) :
    (generate_theorem_tree_optimized ax rules max_level).thm = ax := by
  rw [generate_mk_eq]
  rfl

theorem generate_level_eq (ax : String) (rules : List Rule) (max_level : Int) :
    (generate_theorem_tree_optimized ax rules max_level).level = 0 := by
  rw [generate_mk_eq]
  rfl

theorem generate_links (ax : String) (rules : List Rule) (max_level : Int) :
    ∀ m ∈ collect_all_theorems (generate_theorem_tree_optimized ax rules max_level),
      ∀ c ∈ m.children,
        ∃ e ∈ genEdges ax rules max_level,
          e.parent = m.thm ∧ e.child = c.thm ∧ e.level = c.level := by
  intro m hm c hc
  have hE := attachEdges_links (genEdges ax rules max_level) (genEdges ax rules max_level) []
    (fun _ h => h) (fun _ h => absurd h (List.not_mem_nil _))
  rw [generate_mk_eq] at hm
  rcases mem_collect_cases hm with rfl | hin
  · simp only [TheoremNode.children] at hc
    obtain ⟨pr, hpr, rfl⟩ := List.mem_map.1 hc
    obtain ⟨⟨e, he, h1, h2, h3⟩, _⟩ := hE pr hpr
    refine ⟨e, he, ?_, h2.symm, h3.symm⟩
    rw [← h1, genTags ax rules max_level pr hpr]
    rfl
  · obtain ⟨c0, hc0, hmc⟩ := hin
    obtain ⟨pr, hpr, rfl⟩ := List.mem_map.1 hc0
    exact (hE pr hpr).2 m hmc c hc

theorem generate_realize (ax : String) (rules : List Rule) (max_level : Int) :
    ∀ f ∈ genEdges ax rules max_level,
      ∃ m ∈ collect_all_theorems (generate_theorem_tree_optimized ax rules max_level),
        ∃ c ∈ m.children, m.thm = f.parent ∧ c.thm = f.child ∧ c.level = f.level := by
  intro f hf
  have hch : ∀ pr ∈ attachEdges (genEdges ax rules max_level) [],
      pr.2 ∈ (generate_theorem_tree_optimized ax rules max_level).children := by
    intro pr hpr
    rw [generate_mk_eq]
    exact List.mem_map.2 ⟨pr, hpr, rfl⟩
  rcases attachEdges_realize (genEdges ax rules max_level) [] f hf with
    ⟨pr, hpr, m, hm, c, hc, h⟩ | ⟨pr, hpr, h1, h2, h3⟩
  · exact ⟨m, mem_collect_of_child (hch pr hpr) hm, c, hc, h⟩
  · refine ⟨generate_theorem_tree_optimized ax rules max_level, mem_collect_self _,
      pr.2, hch pr hpr, ?_, h2, h3⟩
    rw [generate_thm_eq, ← genTags ax rules max_level pr hpr, h1]

theorem generate_pair_mem (ax : String) (rules : List Rule) (max_level : Int) :
    ∀ n ∈ collect_all_theorems (generate_theorem_tree_optimized ax rules max_level),
      (n.thm, n.level) ∈
        (ax, 0) :: (genEdges ax rules max_level).map fun e => (e.child, e.level) := by
  intro n hn
  have : (n.thm, n.level) ∈ nodePairs (generate_theorem_tree_optimized ax rules max_level) :=
    List.mem_map.2 ⟨n, hn, rfl⟩
  exact (generate_pairs_perm ax rules max_level).subset this

theorem generate_pairs_fst_nodup (ax : String) (rules : List Rule) (max_level : Int) :
    (((ax, 0) :: (genEdges ax rules max_level).map fun e => (e.child, e.level)).map
      Prod.fst).Nodup := by
  simp only [List.map_cons, List.map_map]
  have e2 : (Prod.fst ∘ fun e : Edge => (e.child, e.level)) = Edge.child := rfl
  rw [e2]
  exact List.nodup_cons.2
    ⟨fun h => by
      obtain ⟨e, he, heq⟩ := List.mem_map.1 h
      exact genEdges_child_ne_ax ax rules max_level e he heq,
     genEdges_child_nodup ax rules max_level⟩

theorem generate_child_level (ax : String) (rules : List Rule) (max_level : Int) :
    ∀ m ∈ collect_all_theorems (generate_theorem_tree_optimized ax rules max_level),
      ∀ c ∈ m.children, c.level = m.level + 1 := by
  intro m hm c hc
  obtain ⟨e, he, hep, hec, hel⟩ := generate_links ax rules max_level m hm c hc
  obtain ⟨sl, hsl, h1, h2⟩ := Grounded.justify _ _ (genEdges_grounded ax rules max_level) e he
  have hm' := generate_pair_mem ax rules max_level m hm
  have hsl' : sl ∈ (ax, 0) :: (genEdges ax rules max_level).map fun e => (e.child, e.level) := by
    simpa using hsl
  have hfst : Prod.fst sl = Prod.fst (m.thm, m.level) := by
    rw [← h1, hep]
  have heq := List.inj_on_of_nodup_map (generate_pairs_fst_nodup ax rules max_level) hsl' hm' hfst
  rw [← hel, h2, heq]

theorem generate_level_le (ax : String) (rules : List Rule) (max_level : Int)
    (hK : 0 ≤ max_level) :
    ∀ n ∈ collect_all_theorems (generate_theorem_tree_optimized ax rules max_level),
      (n.level : Int) ≤ max_level := by
  intro n hn
  rcases List.mem_cons.1 (generate_pair_mem ax rules max_level n hn) with h | h
  · have : n.level = 0 := congrArg Prod.snd h
    rw [this]
    exact hK
  · obtain ⟨e, he, heq⟩ := List.mem_map.1 h
    have : n.level = e.level := (congrArg Prod.snd heq).symm
    rw [this]
    exact genEdges_level_le ax rules max_level e he

theorem generate_child_ne_root (ax : String) (rules : List Rule) (max_level : Int) :
    ∀ m ∈ collect_all_theorems (generate_theorem_tree_optimized ax rules max_level),
      ∀ c ∈ m.children, c.thm ≠ ax := by
  intro m hm c hc
  obtain ⟨e, he, _, hec, _⟩ := generate_links ax rules max_level m hm c hc
  rw [← hec]
  exact genEdges_child_ne_ax ax rules max_level e he


theorem charsLead_length : ∀ (p s : List Char), charsLead p s = true → p.length ≤ s.length := by
  intro p
  induction p with
  | nil =>
    intro s _
    simp
  | cons a as ih =>
    intro s h
    cases s with
    | nil => simp [charsLead] at h
    | cons b bs =>
      rw [charsLead] at h
      by_cases hab : a = b
      · rw [if_pos hab] at h
        simpa using ih bs h
      · rw [if_neg hab] at h
        cases h

theorem replaceFirst_length : ∀ (s p r : List Char), p ≠ [] → substrOccurs p s = true →
    (replaceFirst s p r).length + p.length = s.length + r.length := by
  intro s
  induction s with
  | nil =>
    intro p r hp h
    rw [substrOccurs] at h
    exact absurd (List.isEmpty_iff.1 h) hp
  | cons c cs ih =>
    intro p r hp h
    rw [replaceFirst]
    by_cases hl : charsLead p (c :: cs) = true
    · rw [if_pos hl]
      have hle := charsLead_length p (c :: cs) hl
      simp only [List.length_append, List.length_drop, List.length_cons] at *
      omega
    · rw [if_neg hl]
      rw [substrOccurs, Bool.or_eq_true] at h
      rcases h with h | h
      · exact absurd h hl
      · have := ih p r hp h
        simp only [List.length_cons]
        omega

theorem rule_0_output (s t : String) (h : rule_0 s = some t) : t = s ++ "U" := by
  rw [rule_0] at h
  by_cases hc : strEndsWith s "I" = true
  · rw [if_pos hc] at h
    injection h with h'
    exact h'.symm
  · rw [if_neg hc] at h
    cases h

theorem rule_1_output (s t : String) (h : rule_1 s = some t) :
    strStartsWith s "M" = true ∧ t.data = s.data ++ s.data.drop 1 := by
  rw [rule_1] at h
  by_cases hc : strStartsWith s "M" = true
  · rw [if_pos hc] at h
    injection h with h'
    exact ⟨hc, by rw [← h']⟩
  · rw [if_neg hc] at h
    cases h

theorem rule_2_output (s t : String) (h : rule_2 s = some t) :
    substrOccurs "III".data s.data = true ∧ t.data = replaceFirst s.data "III".data "U".data := by
  rw [rule_2] at h
  by_cases hc : substrOccurs "III".data s.data = true
  · rw [if_pos hc] at h
    injection h with h'
    exact ⟨hc, by rw [← h']⟩
  · rw [if_neg hc] at h
    cases h

theorem rule_3_output (s t : String) (h : rule_3 s = some t) :
    substrOccurs "UU".data s.data = true ∧ t.data = replaceFirst s.data "UU".data [] := by
  rw [rule_3] at h
  by_cases hc : substrOccurs "UU".data s.data = true
  · rw [if_pos hc] at h
    injection h with h'
    exact ⟨hc, by rw [← h']⟩
  · rw [if_neg hc] at h
    cases h

theorem strStartsWith_M (s : String) (h : strStartsWith s "M" = true) :
    ∃ cs, s.data = 'M' :: cs := by
  rw [strStartsWith] at h
  cases hd : s.data with
  | nil =>
    rw [hd] at h
    simp [charsLead] at h
  | cons c cs =>
    rw [hd] at h
    rw [show ("M" : String).data = ['M'] from rfl, charsLead] at h
    by_cases hc : 'M' = c
    · exact ⟨cs, by rw [← hc]⟩
    · rw [if_neg hc] at h
      cases h

theorem rule_2_applicable_ne (s t : String) (h : rule_2 s = some t) : t ≠ s := by
  intro heq
  obtain ⟨hc, hdata⟩ := rule_2_output s t h
  rw [heq] at hdata
  have hlen := replaceFirst_length s.data "III".data "U".data (by decide) hc
  rw [← hdata] at hlen
  simp only [show ("III".data).length = 3 from rfl, show ("U".data).length = 1 from rfl] at hlen
  omega

theorem rule_3_applicable_ne (s t : String) (h : rule_3 s = some t) : t ≠ s := by
  intro heq
  obtain ⟨hc, hdata⟩ := rule_3_output s t h
  rw [heq] at hdata
  have hlen := replaceFirst_length s.data "UU".data [] (by decide) hc
  rw [← hdata] at hlen
  simp only [show ("UU".data).length = 2 from rfl, List.length_nil] at hlen
  omega

theorem rule_0_applicable_ne (s t : String) (h : rule_0 s = some t) : t ≠ s := by
  intro heq
  have h1 := rule_0_output s t h
  rw [heq] at h1
  have h2 := congrArg String.data h1
  rw [String.data_append] at h2
  have h3 := congrArg List.length h2
  simp only [List.length_append, show ("U".data).length = 1 from rfl] at h3
  omega

theorem rule_1_applicable_ne (s t : String) (h : rule_1 s = some t) (hM : s ≠ "M") : t ≠ s := by
  intro heq
  obtain ⟨hc, hdata⟩ := rule_1_output s t h
  rw [heq] at hdata
  have hlen := congrArg List.length hdata
  simp only [List.length_append, List.length_drop] at hlen
  obtain ⟨cs, hcs⟩ := strStartsWith_M s hc
  have h2 : s.data.length = cs.length + 1 := by
    rw [hcs]
    rfl
  have h3 : cs = [] := List.length_eq_zero.1 (by omega)
  apply hM
  apply String.ext
  rw [hcs, h3]

/-- C6 (amended): whenever one of the four rules is applicable to a
string, its output differs from the input, except in the single case of
`rule_1` (Double-tail) applied to the one-character string "M", where the
output equals the input. -/
theorem c6_theorem_no_identity_output (s t : String) :
    (rule_0 s = some t → t ≠ s) ∧
    (rule_1 s = some t → s ≠ "M" → t ≠ s) ∧
    (rule_2 s = some t → t ≠ s) ∧
    (rule_3 s = some t → t ≠ s) :=
  ⟨rule_0_applicable_ne s t, rule_1_applicable_ne s t, rule_2_applicable_ne s t,
    rule_3_applicable_ne s t⟩

/-- C6 counterexample: the Double-tail rule (`rule_1`, one of the four
rules of `RULES`) is applicable to the string "M" and produces exactly
the input string "M" again — an applicable rule with output identical to
its input does occur. -/
theorem c6_counterexample : rule_1 ∈ RULES ∧ rule_1 "M" = some "M" :=
  ⟨List.mem_cons_of_mem _ (List.mem_cons_self _ _), rfl⟩

/-- C6 witness: concrete instances of the amended claim for each rule. -/
theorem c6_witness :
    ("MIU" : String) ≠ "MI" ∧ ("MII" : String) ≠ "MI" ∧
    ("MU" : String) ≠ "MIII" ∧ ("M" : String) ≠ "MUU" :=
  ⟨(c6_theorem_no_identity_output "MI" "MIU").1 (by decide),
   (c6_theorem_no_identity_output "MI" "MII").2.1 (by decide) (by decide),
   (c6_theorem_no_identity_output "MIII" "MU").2.2.1 (by decide),
   (c6_theorem_no_identity_output "MUU" "M").2.2.2 (by decide)⟩

/-- C1: for every axiom string, rule list and depth bound `maxDepth ≥ 0`,
no two distinct nodes of the tree returned by
`generate_theorem_tree_optimized` hold equal theorem strings: the
pre-order listing of all node strings has no duplicate. -/
theorem c1_theorem_uniqueness (ax : String) (rules : List Rule) (max_level : Int)
    (_hK : 0 ≤ max_level) :
    ((collect_all_theorems (generate_theorem_tree_optimized ax rules max_level)).map
      TheoremNode.thm).Nodup :=
  generate_strings_nodup ax rules max_level

/-- C1 witness at a concrete input. -/
theorem c1_witness :
    0 ≤ (0 : Int) ∧
    ((collect_all_theorems (generate_theorem_tree_optimized "MI" RULES 0)).map
      TheoremNode.thm).Nodup :=
  ⟨by decide, c1_theorem_uniqueness "MI" RULES 0 (by decide)⟩

/-- C2: in every tree returned by `generate_theorem_tree_optimized` the
root has level 0 and a null parent (the root is no node's child), and
every non-root node's level is its parent's level plus one (every child
of any node `m` of the tree has level `m.level + 1`). -/
theorem c2_theorem_level_consistency (ax : String) (rules : List Rule) (max_level : Int) :
    (generate_theorem_tree_optimized ax rules max_level).level = 0 ∧
    (∀ m ∈ collect_all_theorems (generate_theorem_tree_optimized ax rules max_level),
      ∀ c ∈ m.children, c ≠ generate_theorem_tree_optimized ax rules max_level) ∧
    ∀ m ∈ collect_all_theorems (generate_theorem_tree_optimized ax rules max_level),
      ∀ c ∈ m.children, c.level = m.level + 1 := by
  refine ⟨generate_level_eq ax rules max_level, ?_, generate_child_level ax rules max_level⟩
  intro m hm c hc hceq
  apply generate_child_ne_root ax rules max_level m hm c hc
  rw [hceq, generate_thm_eq]

/-- C3: for every axiom, rule list and `maxDepth ≥ 0`, no node of the
returned tree has level strictly greater than `maxDepth`. -/
theorem c3_theorem_depth_bound (ax : String) (rules : List Rule) (max_level : Int)
    (hK : 0 ≤ max_level) :
    ∀ n ∈ collect_all_theorems (generate_theorem_tree_optimized ax rules max_level),
      ¬ ((n.level : Int) > max_level) := by
  intro n hn
  have := generate_level_le ax rules max_level hK n hn
  omega

/-- C3 witness at a concrete input. -/
theorem c3_witness :
    0 ≤ (2 : Int) ∧
    ∀ n ∈ collect_all_theorems (generate_theorem_tree_optimized "MI" RULES 2),
      ¬ ((n.level : Int) > 2) :=
  ⟨by decide, c3_theorem_depth_bound "MI" RULES 2 (by decide)⟩

/-- C5 (amended): called with a negative depth bound, the generator does
not fail fast with an invalid-argument error; it silently returns the
root-only tree (the loop body never runs, because no level is below a
negative bound), exactly as if the bound were 0. -/
theorem c5_theorem_negative_depth (ax : String) (rules : List Rule) (max_level : Int)
    (hneg : max_level < 0) :
    generate_theorem_tree_optimized ax rules max_level = .mk ax 0 [] := by
  have hE : genEdges ax rules max_level = [] := by
    rw [genEdges, bfsLoop, dif_neg (by omega : ¬ (((0 : Nat) : Int) < max_level))]
  rw [generate_mk_eq, hE]
  rfl

/-- C5 counterexample: at the concrete negative bound `-1` the generator
returns a tree (the bare root) rather than signalling an invalid
argument — the embedded function is total and produces a `TheoremNode`. -/
theorem c5_counterexample :
    generate_theorem_tree_optimized "MI" RULES (-1) = .mk "MI" 0 [] := by
  have hE : genEdges "MI" RULES (-1) = [] := by
    rw [genEdges, bfsLoop, dif_neg (by decide : ¬ (((0 : Nat) : Int) < (-1 : Int)))]
  rw [generate_mk_eq, hE]
  rfl

/-- C5 witness for the amended claim. -/
theorem c5_witness :
    (-1 : Int) < 0 ∧ generate_theorem_tree_optimized "MI" RULES (-1) = .mk "MI" 0 [] :=
  ⟨by decide, c5_theorem_negative_depth "MI" RULES (-1) (by decide)⟩

/-- C10: calling `generate_theorem_tree_optimized` without a depth bound
behaves exactly as passing the default bound 10: for every axiom and rule
list the two calls return the same tree. -/
theorem c10_theorem_default_depth (ax : String) (rules : List Rule) :
    generate_theorem_tree_optimized ax rules = generate_theorem_tree_optimized ax rules 10 :=
  rfl

theorem applyRules_RULES_empty : applyRules RULES "" [""] = ([], [""]) := rfl

/-- C9: with the empty string as axiom and the four-rule set, no rule is
applicable, so for every depth bound (in particular every `maxDepth ≥ 0`)
the generator returns the single root node holding the empty string with
no children; being a total function, it raises nothing. -/
theorem c9_theorem_empty_axiom (max_level : Int) (_hK : 0 ≤ max_level) :
    generate_theorem_tree_optimized "" RULES max_level = .mk "" 0 [] := by
  have hE : genEdges "" RULES max_level = [] := by
    rw [genEdges]
    by_cases h : (((0 : Nat) : Int) < max_level)
    · rw [bfsLoop, dif_pos h]
      dsimp only
      rw [applyRules_RULES_empty]
      simp only [List.map_nil, List.append_nil, List.nil_append]
      rw [bfsLoop]
    · rw [bfsLoop, dif_neg h]
  rw [generate_mk_eq, hE]
  rfl

/-- C9 witness at a concrete depth bound. -/
theorem c9_witness :
    0 ≤ (4 : Int) ∧ generate_theorem_tree_optimized "" RULES 4 = .mk "" 0 [] :=
  ⟨by decide, c9_theorem_empty_axiom 4 (by decide)⟩

theorem genEdges_MI_1 : genEdges "MI" RULES 1 = [⟨"MI", "MIU", 1⟩, ⟨"MI", "MII", 1⟩] := by
  rw [genEdges, ← bfsLoopF_eq_bfsLoop RULES 1 200 [("MI", 0)] ["MI"] (by decide)]
  rfl

/-- C7: `generate_theorem_tree_optimized "MI" RULES 1` returns the root
"MI" at level 0 with exactly two children: "MIU" (from `rule_0`,
Append-U) and "MII" (from `rule_1`, Double-tail), both childless at
level 1. -/
theorem c7_theorem_depth_one :
    generate_theorem_tree_optimized "MI" RULES 1 =
      .mk "MI" 0 [.mk "MIU" 1 [], .mk "MII" 1 []] := by
  rw [generate_eq_buildTree, genEdges_MI_1]
  rfl

theorem genEdges_MI_3 : genEdges "MI" RULES 3 =
    [⟨"MI", "MIU", 1⟩, ⟨"MI", "MII", 1⟩,
     ⟨"MIU", "MIUIU", 2⟩, ⟨"MII", "MIIU", 2⟩, ⟨"MII", "MIIII", 2⟩,
     ⟨"MIUIU", "MIUIUIUIU", 3⟩, ⟨"MIIU", "MIIUIIU", 3⟩,
     ⟨"MIIII", "MIIIIU", 3⟩, ⟨"MIIII", "MIIIIIIII", 3⟩, ⟨"MIIII", "MUI", 3⟩] := by
  rw [genEdges, ← bfsLoopF_eq_bfsLoop RULES 3 1000 [("MI", 0)] ["MI"] (by decide)]
  rfl

theorem genEdges_mono (ax : String) (rules : List Rule) (K K' : Int) (hK : K ≤ K') :
    ∀ e ∈ genEdges ax rules K, e ∈ genEdges ax rules K' :=
  bfsLoop_mono rules K K' hK [(ax, 0)] [ax]

theorem collect_trans : ∀ (T m x : TheoremNode), m ∈ collect_all_theorems T →
    x ∈ collect_all_theorems m → x ∈ collect_all_theorems T := by
  intro T
  induction T using collect_all_theorems.induct with
  | _ t l cs ih =>
    intro m x hm hx
    rcases mem_collect_cases hm with rfl | hin
    · exact hx
    · obtain ⟨c, hc, hmc⟩ := hin
      have hcc : c ∈ (TheoremNode.mk t l cs).children := by
        simpa [TheoremNode.children] using hc
      exact mem_collect_of_child hcc (ih ⟨c, hc⟩ m x hmc hx)

theorem mem_collect_of_child_mem {T m c : TheoremNode}
    (hm : m ∈ collect_all_theorems T) (hc : c ∈ m.children) : c ∈ collect_all_theorems T :=
  collect_trans T m c hm (mem_collect_of_child hc (mem_collect_self c))

theorem generate_node_unique (ax : String) (rules : List Rule) (max_level : Int) :
    ∀ m ∈ collect_all_theorems (generate_theorem_tree_optimized ax rules max_level),
      ∀ n ∈ collect_all_theorems (generate_theorem_tree_optimized ax rules max_level),
        m.thm = n.thm → m = n := by
  intro m hm n hn h
  exact List.inj_on_of_nodup_map (generate_strings_nodup ax rules max_level) hm hn h

/-- C8: for every depth bound `maxDepth ≥ 3`, the tree generated from
"MI" with the four rules contains a node "MUI" at level 3 whose walk of
`parent` back-references is MUI, MIIII, MII, MI, so
`get_path_to_root` on it returns exactly `["MI", "MII", "MIIII", "MUI"]`. -/
theorem c8_theorem_path_to_MUI (max_level : Int) (hK : 3 ≤ max_level) :
    ∃ node ps,
      HasParentPath (generate_theorem_tree_optimized "MI" RULES max_level) node ps ∧
      node.thm = "MUI" ∧ node.level = 3 ∧
      get_path_to_root node ps = ["MI", "MII", "MIIII", "MUI"] := by
  have hea : (⟨"MI", "MII", 1⟩ : Edge) ∈ genEdges "MI" RULES max_level := by
    apply genEdges_mono "MI" RULES 3 max_level hK
    rw [genEdges_MI_3]
    decide
  have heb : (⟨"MII", "MIIII", 2⟩ : Edge) ∈ genEdges "MI" RULES max_level := by
    apply genEdges_mono "MI" RULES 3 max_level hK
    rw [genEdges_MI_3]
    decide
  have hec : (⟨"MIIII", "MUI", 3⟩ : Edge) ∈ genEdges "MI" RULES max_level := by
    apply genEdges_mono "MI" RULES 3 max_level hK
    rw [genEdges_MI_3]
    decide
  obtain ⟨m1, hm1, c1, hc1, hm1t, hc1t, hc1l⟩ := generate_realize "MI" RULES max_level _ hea
  obtain ⟨m2, hm2, c2, hc2, hm2t, hc2t, hc2l⟩ := generate_realize "MI" RULES max_level _ heb
  obtain ⟨m3, hm3, c3, hc3, hm3t, hc3t, hc3l⟩ := generate_realize "MI" RULES max_level _ hec
  have hrootmem : generate_theorem_tree_optimized "MI" RULES max_level ∈
      collect_all_theorems (generate_theorem_tree_optimized "MI" RULES max_level) :=
    mem_collect_self _
  have hm1T : m1 = generate_theorem_tree_optimized "MI" RULES max_level := by
    apply generate_node_unique "MI" RULES max_level m1 hm1 _ hrootmem
    rw [hm1t, generate_thm_eq]
  have hc1mem := mem_collect_of_child_mem hm1 hc1
  have hc2mem := mem_collect_of_child_mem hm2 hc2
  have hm2c1 : m2 = c1 := by
    apply generate_node_unique "MI" RULES max_level m2 hm2 c1 hc1mem
    rw [hm2t, hc1t]
  have hm3c2 : m3 = c2 := by
    apply generate_node_unique "MI" RULES max_level m3 hm3 c2 hc2mem
    rw [hm3t, hc2t]
  refine ⟨c3, [c2, c1, generate_theorem_tree_optimized "MI" RULES max_level], ?_, hc3t, hc3l, ?_⟩
  · apply HasParentPath.step
    · apply HasParentPath.step
      · apply HasParentPath.step
        · exact HasParentPath.root0
        · rw [← hm1T]
          exact hc1
      · rw [← hm2c1]
        exact hc2
    · rw [← hm3c2]
      exact hc3
  · rw [get_path_to_root]
    simp only [List.map_cons, List.map_nil, List.reverse_cons, List.reverse_nil]
    rw [hc3t, hc2t, hc1t, generate_thm_eq]
    rfl

/-- C8 witness at the concrete bound 3. -/
theorem c8_witness :
    (3 : Int) ≤ 3 ∧
    ∃ node ps,
      HasParentPath (generate_theorem_tree_optimized "MI" RULES 3) node ps ∧
      node.thm = "MUI" ∧ node.level = 3 ∧
      get_path_to_root node ps = ["MI", "MII", "MIIII", "MUI"] :=
  ⟨by decide, c8_theorem_path_to_MUI 3 (by decide)⟩

theorem bfsLoop_level_decomp (rules : List Rule) (K : Int) (l : Nat) (hl : (l : Int) < K) :
    ∀ (A B seen : List String),
      (bfsLoop rules K (A.map (fun s => (s, l)) ++ B.map fun s => (s, l + 1)) seen).map
        Edge.child =
      (expandLevel rules A seen).1 ++
        (bfsLoop rules K ((B ++ (expandLevel rules A seen).1).map fun s => (s, l + 1))
          (expandLevel rules A seen).2).map Edge.child := by
  intro A
  induction A with
  | nil =>
    intro B seen
    rw [expandLevel]
    simp only [List.nil_append, List.map_nil, List.append_nil]
  | cons s as ih =>
    intro B seen
    rw [List.map_cons, List.cons_append, bfsLoop, dif_pos hl]
    dsimp only
    rw [List.map_append, List.map_map]
    have hcomp : (Edge.child ∘ fun t => Edge.mk s t (l + 1)) = id := rfl
    rw [hcomp, List.map_id]
    rw [expandLevel]
    dsimp only
    have hq : as.map (fun s => (s, l)) ++ B.map (fun s => (s, l + 1)) ++
        (applyRules rules s seen).1.map (fun t => (t, l + 1)) =
        as.map (fun s => (s, l)) ++
          (B ++ (applyRules rules s seen).1).map fun s => (s, l + 1) := by
      rw [List.map_append, List.append_assoc]
    rw [hq, ih (B ++ (applyRules rules s seen).1) (applyRules rules s seen).2]
    rw [show B ++ ((applyRules rules s seen).1 ++
          (expandLevel rules as (applyRules rules s seen).2).1) =
        (B ++ (applyRules rules s seen).1) ++
          (expandLevel rules as (applyRules rules s seen).2).1 from
      (List.append_assoc _ _ _).symm]
    exact (List.append_assoc _ _ _).symm

theorem bfsLoop_eq_runLevels (rules : List Rule) (K : Int) :
    ∀ (d : Nat) (l : Nat) (F seen : List String), (K - l).toNat = d →
      (bfsLoop rules K (F.map fun s => (s, l)) seen).map Edge.child =
        runLevelsNew rules d F seen := by
  intro d
  induction d with
  | zero =>
    intro l F seen hd
    have hnl : ¬ ((l : Int) < K) := by omega
    cases F with
    | nil =>
      rw [List.map_nil, bfsLoop, runLevelsNew]
      rfl
    | cons s fs =>
      rw [List.map_cons, bfsLoop, dif_neg hnl, runLevelsNew]
      rfl
  | succ d ih =>
    intro l F seen hd
    have hl : (l : Int) < K := by omega
    have hdec := bfsLoop_level_decomp rules K l hl F [] seen
    rw [List.map_nil, List.append_nil, List.nil_append] at hdec
    rw [hdec, runLevelsNew]
    congr 1
    exact ih (l + 1) _ _ (by omega)

theorem expandLevel_mem_snd (rules : List Rule) :
    ∀ (F seen : List String) (t : String),
      t ∈ (expandLevel rules F seen).2 ↔
        t ∈ seen ∨ ∃ s ∈ F, ∃ r ∈ rules, r s = some t := by
  intro F
  induction F with
  | nil =>
    intro seen t
    simp [expandLevel]
  | cons s fs ih =>
    intro seen t
    rw [expandLevel]
    dsimp only
    rw [ih, applyRules_mem_snd, List.exists_mem_cons_iff]
    constructor
    · rintro ((h | h) | h)
      · exact Or.inl h
      · exact Or.inr (Or.inl h)
      · exact Or.inr (Or.inr h)
    · rintro (h | (h | h))
      · exact Or.inl (Or.inl h)
      · exact Or.inl (Or.inr h)
      · exact Or.inr h

theorem expandLevel_mem_fst (rules : List Rule) :
    ∀ (F seen : List String) (t : String),
      t ∈ (expandLevel rules F seen).1 ↔
        t ∉ seen ∧ ∃ s ∈ F, ∃ r ∈ rules, r s = some t := by
  intro F
  induction F with
  | nil =>
    intro seen t
    simp [expandLevel]
  | cons s fs ih =>
    intro seen t
    rw [expandLevel]
    dsimp only
    rw [List.mem_append, ih, applyRules_mem_fst, applyRules_mem_snd, List.exists_mem_cons_iff]
    constructor
    · rintro (⟨h1, h2⟩ | ⟨h1, h2⟩)
      · exact ⟨h1, Or.inl h2⟩
      · exact ⟨fun hx => h1 (Or.inl hx), Or.inr h2⟩
    · rintro ⟨h1, h2 | h2⟩
      · exact Or.inl ⟨h1, h2⟩
      · by_cases hp : ∃ r ∈ rules, r s = some t
        · exact Or.inl ⟨h1, hp⟩
        · exact Or.inr ⟨fun hx => hx.elim h1 hp, h2⟩

theorem runLevelsNew_perm_invariant (rules1 rules2 : List Rule)
    (hr : ∀ r : Rule, r ∈ rules1 ↔ r ∈ rules2) :
    ∀ (d : Nat) (F1 F2 seen1 seen2 : List String),
      (∀ x : String, x ∈ F1 ↔ x ∈ F2) → (∀ x : String, x ∈ seen1 ↔ x ∈ seen2) →
      ∀ t : String, t ∈ runLevelsNew rules1 d F1 seen1 ↔ t ∈ runLevelsNew rules2 d F2 seen2 := by
  intro d
  induction d with
  | zero =>
    intro F1 F2 seen1 seen2 _ _ t
    simp [runLevelsNew]
  | succ d ih =>
    intro F1 F2 seen1 seen2 hF hseen t
    have hns : ∀ x : String,
        x ∈ (expandLevel rules1 F1 seen1).1 ↔ x ∈ (expandLevel rules2 F2 seen2).1 := by
      intro x
      rw [expandLevel_mem_fst, expandLevel_mem_fst]
      constructor
      · rintro ⟨h1, s, hs, r, hrr, hrs⟩
        exact ⟨fun hx => h1 ((hseen x).2 hx), s, (hF s).1 hs, r, (hr r).1 hrr, hrs⟩
      · rintro ⟨h1, s, hs, r, hrr, hrs⟩
        exact ⟨fun hx => h1 ((hseen x).1 hx), s, (hF s).2 hs, r, (hr r).2 hrr, hrs⟩
    have hsn : ∀ x : String,
        x ∈ (expandLevel rules1 F1 seen1).2 ↔ x ∈ (expandLevel rules2 F2 seen2).2 := by
      intro x
      rw [expandLevel_mem_snd, expandLevel_mem_snd]
      constructor
      · rintro (hx | ⟨s, hs, r, hrr, hrs⟩)
        · exact Or.inl ((hseen x).1 hx)
        · exact Or.inr ⟨s, (hF s).1 hs, r, (hr r).1 hrr, hrs⟩
      · rintro (hx | ⟨s, hs, r, hrr, hrs⟩)
        · exact Or.inl ((hseen x).2 hx)
        · exact Or.inr ⟨s, (hF s).2 hs, r, (hr r).2 hrr, hrs⟩
    rw [runLevelsNew, runLevelsNew]
    rw [List.mem_append, List.mem_append, hns t]
    constructor
    · rintro (hx | hx)
      · exact Or.inl hx
      · exact Or.inr ((ih _ _ _ _ hns hsn t).1 hx)
    · rintro (hx | hx)
      · exact Or.inl hx
      · exact Or.inr ((ih _ _ _ _ hns hsn t).2 hx)

theorem generate_strings_set (ax : String) (rules : List Rule) (max_level : Int)
    (hK : 0 ≤ max_level) (t : String) :
    t ∈ (collect_all_theorems (generate_theorem_tree_optimized ax rules max_level)).map
        TheoremNode.thm ↔
      t = ax ∨ t ∈ runLevelsNew rules max_level.toNat [ax] [ax] := by
  rw [(generate_strings_perm ax rules max_level).mem_iff, List.mem_cons]
  have h : (genEdges ax rules max_level).map Edge.child =
      runLevelsNew rules max_level.toNat [ax] [ax] := by
    rw [genEdges]
    rw [show [(ax, (0 : Nat))] = [ax].map fun s => (s, (0 : Nat)) from rfl]
    exact bfsLoop_eq_runLevels rules max_level max_level.toNat 0 [ax] [ax] (by omega)
  rw [h]

/-- C4: for every axiom, every depth bound `maxDepth ≥ 0` and any
permutation of the four-rule list, the set of theorem strings in the tree
returned by `generate_theorem_tree_optimized` equals the set produced
with the original rule order `RULES`: rule order never affects which
theorems are discovered. -/
theorem c4_theorem_rule_order_invariance (rules' : List Rule) (hperm : List.Perm rules' RULES)
    (ax : String) (max_level : Int) (hK : 0 ≤ max_level) :
    ((collect_all_theorems (generate_theorem_tree_optimized ax rules' max_level)).map
      TheoremNode.thm).toFinset =
    ((collect_all_theorems (generate_theorem_tree_optimized ax RULES max_level)).map
      TheoremNode.thm).toFinset := by
  apply Finset.ext
  intro t
  rw [List.mem_toFinset, List.mem_toFinset, generate_strings_set ax rules' max_level hK t,
    generate_strings_set ax RULES max_level hK t]
  have hinv := runLevelsNew_perm_invariant rules' RULES
    (fun r => ⟨fun h => hperm.subset h, fun h => hperm.symm.subset h⟩) max_level.toNat
    [ax] [ax] [ax] [ax] (fun _ => Iff.rfl) (fun _ => Iff.rfl) t
  rw [hinv]

/-- C4 witness: swapping the first two rules at a concrete input. -/
theorem c4_witness :
    ((collect_all_theorems
      (generate_theorem_tree_optimized "MI" [rule_1, rule_0, rule_2, rule_3] 1)).map
        TheoremNode.thm).toFinset =
    ((collect_all_theorems (generate_theorem_tree_optimized "MI" RULES 1)).map
      TheoremNode.thm).toFinset :=
  c4_theorem_rule_order_invariance [rule_1, rule_0, rule_2, rule_3]
    (List.Perm.swap rule_0 rule_1 [rule_2, rule_3]) "MI" 1 (by decide)
